import Mathlib

/-!
Verification of the turn-based simulation core of the rouge_haddock_bevy
repository, shallowly embedded in Lean 4.

Embedding conventions:
* machine integers: u32 coordinates become natural numbers with explicit
  checked/wrapping arithmetic where the source uses it; i32 values become
  integers; usize counters become naturals;
* Rust HashMap: association lists or explicit functions to Option;
* panics / unwrap on None: functions return Option, with none marking a panic;
* the thread-local RNG consumed by weighted sampling is an explicit sampler
  parameter constrained by the contract of choose_multiple_weighted.
-/

namespace RH

/-! ## Turn scheduler (src/game/turn.rs) -/

/-- The five game phases, in the order declared in the source. -/
inductive GamePhase where
  | PlayerMovement
  | PlayerPowerEffect
  | PreEnemyMovement
  | EnemyPowerEffect
  | EnemyMovement
  deriving DecidableEq, Repr

namespace GamePhase

/-- GamePhase::next from the source. -/
def next : GamePhase → GamePhase
  | PlayerMovement => PlayerPowerEffect
  | PlayerPowerEffect => PreEnemyMovement
  | PreEnemyMovement => EnemyPowerEffect
  | EnemyPowerEffect => EnemyMovement
  | EnemyMovement => PlayerMovement

/-- GamePhase::last from the source. -/
def last : GamePhase → Bool
  | EnemyMovement => true
  | _ => false

/-- Iterated next, for expressing the fixed cyclic order of phases. -/
def nextN (p : GamePhase) : Nat → GamePhase
  | 0 => p
  | n + 1 => (nextN p n).next

end GamePhase

/-- GlobalTurnCounter state: turn_count (usize), current_phase, reset flag. -/
structure GlobalTurnCounter where
  turn_count : Nat
  current_phase : GamePhase
  reset : Bool
  deriving DecidableEq, Repr

namespace GlobalTurnCounter

/-- Default::default() for GlobalTurnCounter. -/
def default : GlobalTurnCounter :=
  { turn_count := 1, current_phase := .PlayerMovement, reset := true }

/-- GlobalTurnCounter::step(from_phase).  When from_phase matches the current
phase: if the current phase is the last one, increment turn_count and clear the
reset flag; then advance current_phase.  Otherwise (mismatched phase) the call
only logs a warning and the state is unchanged. -/
def step (s : GlobalTurnCounter) (from_phase : GamePhase) : GlobalTurnCounter :=
  if from_phase = s.current_phase then
    let s :=
      if s.current_phase.last then
        { s with turn_count := s.turn_count + 1, reset := false }
      else s
    { s with current_phase := s.current_phase.next }
  else
    s

/-- GlobalTurnCounter::can_take_turn(local_count, phase).  The source first
clamps the caller's local counter (a mutation through the &mut borrow) when the
reset flag is set and the local counter overshoots the global turn count, then
returns the comparison.  The result is the pair (new local counter, returned
bool). -/
def canTakeTurn (s : GlobalTurnCounter) (local_count : Nat) (phase : GamePhase) :
    Nat × Bool :=
  let local_count :=
    if s.reset ∧ local_count > s.turn_count then s.turn_count - 1 else local_count
  (local_count, decide (local_count < s.turn_count) && decide (phase = s.current_phase))

/-- step applied with the phase that is current at the time of each call,
iterated n times. -/
def stepCorrectN (s : GlobalTurnCounter) : Nat → GlobalTurnCounter
  | 0 => s
  | n + 1 => (stepCorrectN s n).step (stepCorrectN s n).current_phase

end GlobalTurnCounter

/-! ## Grid data model (src/game/components.rs, src/game/tilemap.rs)

TilePos (from bevy_ecs_tilemap) is a pair of u32 coordinates, modelled as a
pair of naturals with explicit checked / wrapping arithmetic.  Entities are
modelled as naturals. -/

/-- Entity identifiers of the entity store. -/
abbrev Entity : Type := Nat

/-- A tile position: a pair of u32 grid coordinates. -/
abbrev TilePos : Type := Nat × Nat

/-- 2^32, the u32 modulus. -/
def U32_MOD : Nat := 4294967296

/-- helpers::add(u: u32, i: i32) from tilemap.rs: checked_sub for a negative
offset, checked_add (overflow at 2^32) otherwise. -/
def helpersAdd (u : Nat) (i : Int) : Option Nat :=
  if i < 0 then
    if i.natAbs ≤ u then some (u - i.natAbs) else none
  else
    if u + i.natAbs < U32_MOD then some (u + i.natAbs) else none

/-- TilePosExt::add from tilemap.rs: both components go through helpers::add
and are unwrapped — a None (overflow/underflow) is a panic, modelled as none. -/
def tilePosAdd (p : TilePos) (a : Int × Int) : Option TilePos :=
  match helpersAdd p.1 a.1, helpersAdd p.2 a.2 with
  | some x, some y => some (x, y)
  | _, _ => none

/-- TileType from components.rs. -/
inductive TileType where
  | WALL
  | WATER
  deriving DecidableEq, Repr

/-- TileType::can_enter. -/
def TileType.canEnter : TileType → Bool
  | .WALL => false
  | .WATER => true

/-- MapDirection from components.rs. -/
inductive MapDirection where
  | Up
  | Right
  | Down
  | Left
  deriving DecidableEq, Repr

/-- MapDirection::to_pos_move. -/
def MapDirection.toPosMove : MapDirection → Int × Int
  | .Up => (0, 1)
  | .Down => (0, -1)
  | .Right => (1, 0)
  | .Left => (-1, 0)

/-- MapDirection::to_unit_translation().truncate(): the same unit vectors as
to_pos_move, produced as f32 vectors in the source and consumed cast back to
integers; modelled directly on integers. -/
def MapDirection.toUnitTranslation : MapDirection → Int × Int
  | .Up => (0, 1)
  | .Down => (0, -1)
  | .Right => (1, 0)
  | .Left => (-1, 0)

/-! ## Movement resolver (src/game/movement.rs) -/

/-- AttackCriteria from movement.rs (fields are private; the only
constructors are for_player and for_enemy). -/
structure AttackCriteria where
  damage : Nat
  can_attack_enemy : Bool
  can_attack_player : Bool
  move_on_attack : Bool
  deriving DecidableEq, Repr

/-- AttackCriteria::for_player. -/
def AttackCriteria.forPlayer : AttackCriteria :=
  { damage := 1, can_attack_enemy := true, can_attack_player := false,
    move_on_attack := true }

/-- AttackCriteria::for_enemy(can_attack_directly). -/
def AttackCriteria.forEnemy (can_attack_directly : Bool) : AttackCriteria :=
  { damage := 1, can_attack_enemy := false,
    can_attack_player := can_attack_directly, move_on_attack := false }

/-- The payload of MoveDecision::AttackAndMaybeMove. -/
structure AttackAndMaybeMoveData where
  attack_target_pos : TilePos
  attack_target_entity : Entity
  direction : MapDirection
  position_before_enemy : Option TilePos
  deriving DecidableEq, Repr

/-- MoveDecision from movement.rs. -/
inductive MoveDecision where
  | move : TilePos × MapDirection → MoveDecision
  | nothing : MoveDecision
  | attackAndMaybeMove : AttackAndMaybeMoveData → MoveDecision
  | attackAndDontMove : Entity × MapDirection → MoveDecision
  | turn : MapDirection → MoveDecision
  deriving DecidableEq, Repr

/-- attack_decision from movement.rs: AttackAndMaybeMove when
move_on_attack is set or there is a previous (free) tile this call walked
through, AttackAndDontMove otherwise. -/
def attackDecision (ac : AttackCriteria) (destination : TilePos)
    (previous : Option TilePos) (dir : MapDirection) (target : Entity) :
    MoveDecision :=
  match ac.move_on_attack, previous with
  | true, _ | false, some _ =>
    .attackAndMaybeMove
      { attack_target_pos := destination, attack_target_entity := target,
        direction := dir, position_before_enemy := previous }
  | false, none => .attackAndDontMove (target, dir)

/-- One row of the movement query: (entity, position, has Player tag,
has Enemy tag). -/
structure MoveQueryItem where
  entity : Entity
  pos : TilePos
  player : Bool
  enemy : Bool
  deriving DecidableEq, Repr

/-- The inner occupant scan of decide_move: the first query row sitting on the
destination tile that is tagged player or enemy (untagged rows are skipped). -/
def findOccupant (mq : List MoveQueryItem) (dest : TilePos) :
    Option MoveQueryItem :=
  mq.find? (fun o => decide (o.pos = dest) && (o.player || o.enemy))

/-- Lines 116-125 of decide_move: look the destination tile up in the (single)
TileStorage — a missing entity is unwrapped, i.e. a panic, modelled as none —
then ask the HasTileType query; a failed component lookup means not enterable,
and tiles in additional_ignore_tilepos are not enterable either. -/
def tileCanMove (storage : TilePos → Option Entity)
    (ttq : Entity → Option TileType) (blocked : List TilePos) (p : TilePos) :
    Option Bool :=
  match storage p with
  | none => none
  | some e =>
    some ((match ttq e with
           | some tt => tt.canEnter
           | none => false) && !(decide (p ∈ blocked)))

/-- The candidate-tile list of decide_move: step from current_pos along the
direction max_move_distance times; each step unwraps the checked add (none
marks the panic). -/
def destinationTileposList (current : TilePos) (dir : MapDirection) :
    Nat → Option (List TilePos)
  | 0 => some []
  | n + 1 =>
    match tilePosAdd current dir.toPosMove with
    | none => none
    | some q => (destinationTileposList q dir n).map (q :: ·)

/-- The main loop of decide_move over the candidate tiles, threading the
current decision and the previous move target.  Stopping cases return the
decision accumulated so far; attacks and bumps terminate the scan. -/
def decideMoveLoop (ac : AttackCriteria) (dir : MapDirection)
    (mq : List MoveQueryItem) (storage : TilePos → Option Entity)
    (ttq : Entity → Option TileType) (blocked : List TilePos) :
    List TilePos → MoveDecision → Option TilePos → Option MoveDecision
  | [], dec, _ => some dec
  | dest :: rest, dec, prev =>
    match tileCanMove storage ttq blocked dest with
    | none => none
    | some false => some dec
    | some true =>
      match findOccupant mq dest with
      | some o =>
        if o.player then
          if ac.can_attack_player then
            some (attackDecision ac dest prev dir o.entity)
          else some (.turn dir)
        else
          if ac.can_attack_enemy then
            some (attackDecision ac dest prev dir o.entity)
          else some (.turn dir)
      | none =>
        decideMoveLoop ac dir mq storage ttq blocked rest
          (.move (dest, dir)) (some dest)

/-- decide_move from movement.rs.  none models a panic (tile-storage unwrap or
checked-add unwrap); the initial decision is Turn(direction). -/
def decideMove (current : TilePos) (dir : MapDirection) (maxDist : Nat)
    (ac : AttackCriteria) (mq : List MoveQueryItem)
    (storage : TilePos → Option Entity) (ttq : Entity → Option TileType)
    (blocked : List TilePos) : Option MoveDecision :=
  match destinationTileposList current dir maxDist with
  | none => none
  | some dests => decideMoveLoop ac dir mq storage ttq blocked dests (.turn dir) none

/-- Health::decr_by from components.rs (saturating at 0). -/
def decrBy (hp d : Nat) : Nat := if d ≤ hp then hp - d else 0

/-- The entity state touched by apply_move_single: the movement query rows
(position and facing; the animation/transform parts are rendering-only) and
the health query. -/
structure MoveState where
  moveComp : Entity → Option (TilePos × MapDirection)
  healths : Entity → Option Nat

/-- apply_move_single from movement.rs: compute the optional new position and
facing (mutating target health for attack decisions, by the literal 1 of the
source), then write them through the movement query if the entity has the
components. -/
def applyMoveSingle (e : Entity) (d : MoveDecision) (s : MoveState) : MoveState :=
  let res : Option TilePos × Option MapDirection × MoveState :=
    match d with
    | .nothing => (none, none, s)
    | .turn f => (none, some f, s)
    | .move (tp, f) => (some tp, some f, s)
    | .attackAndDontMove (t, f) =>
      match s.healths t with
      | some hp =>
        (none, some f,
          { s with healths := fun x => if x = t then some (decrBy hp 1) else s.healths x })
      | none => (none, some f, s)
    | .attackAndMaybeMove a =>
      match s.healths a.attack_target_entity with
      | some hp =>
        let hp2 := decrBy hp 1
        let s2 : MoveState :=
          { s with healths := fun x =>
              if x = a.attack_target_entity then some hp2 else s.healths x }
        let result_tilepos : Option TilePos :=
          if hp2 = 0 then some a.attack_target_pos
          else
            match a.position_before_enemy with
            | some p => some p
            | none => none
        (result_tilepos, some a.direction, s2)
      | none => (none, some a.direction, s)
  match res with
  | (mt, mf, s2) =>
    if mt.isSome || mf.isSome then
      match s2.moveComp e with
      | some (tp, fc) =>
        { s2 with moveComp := fun x =>
            if x = e then some (mt.getD tp, mf.getD fc) else s2.moveComp x }
      | none => s2
    else s2

/-! ## Line scanner (src/game/projectile.rs) -/

/-- get_tiletype from projectile.rs: coordinates with no entity in the tile
storage, and tile entities whose HasTileType lookup fails, both classify as
WALL. -/
def getTiletype (t : TilePos) (q : Entity → Option TileType)
    (storage : TilePos → Option Entity) : TileType :=
  match storage t with
  | some e =>
    match q e with
    | some tt => tt
    | none => .WALL
  | none => .WALL

/-- ProjectileFate from projectile.rs. -/
inductive ProjectileFate where
  | endNoTarget : TilePos → ProjectileFate
  | endHitTarget : TilePos × Entity → ProjectileFate
  deriving DecidableEq, Repr

/-- tilepos_add_vec from projectile.rs: u32 += / -= on each component of the
(unit) vector, wrapping modulo 2^32 (release-build semantics). -/
def tileposAddVec (p : TilePos) (v : Int × Int) : TilePos :=
  (if v.1 < 0 then (p.1 + (U32_MOD - v.1.natAbs % U32_MOD)) % U32_MOD
   else (p.1 + v.1.natAbs) % U32_MOD,
   if v.2 < 0 then (p.2 + (U32_MOD - v.2.natAbs % U32_MOD)) % U32_MOD
   else (p.2 + v.2.natAbs) % U32_MOD)

/-- The target pre-filter of scan_to_endpoint: entities of the query sharing
the origin's row or column, inserted into a HashMap keyed by position (later
rows overwrite earlier ones at the same position), read back as a lookup. -/
def targetsOnSameRowOrColumn (q : List (Entity × TilePos)) (origin : TilePos) :
    TilePos → Option Entity :=
  q.foldl
    (fun acc et =>
      if et.2.1 = origin.1 ∨ et.2.2 = origin.2 then
        fun p => if p = et.2 then some et.1 else acc p
      else acc)
    (fun _ => none)

/-- The scan loop of scan_to_endpoint.  The source counts iterations and
panics above 150; here the remaining allowance is the fuel argument and none
models that panic.  Each step advances one tile, walls terminate (returning
the remembered hit if any), a matched target returns immediately only when
return_early_on_target_hit is set and is remembered otherwise. -/
def scanToEndpointLoop (targets : TilePos → Option Entity)
    (storage : TilePos → Option Entity) (ttq : Entity → Option TileType)
    (step : Int × Int) (return_early : Bool) :
    Nat → TilePos → Option Entity → Option ProjectileFate
  | 0, _, _ => none
  | f + 1, pos, hit =>
    let pos := tileposAddVec pos step
    if (getTiletype pos ttq storage).canEnter then
      match targets pos with
      | some e =>
        if return_early then some (.endHitTarget (pos, e))
        else scanToEndpointLoop targets storage ttq step return_early f pos (some e)
      | none => scanToEndpointLoop targets storage ttq step return_early f pos hit
    else
      match hit with
      | some t => some (.endHitTarget (pos, t))
      | none => some (.endNoTarget pos)

/-- scan_to_endpoint from projectile.rs. -/
def scanToEndpoint (origin : TilePos) (dir : MapDirection)
    (q : List (Entity × TilePos)) (storage : TilePos → Option Entity)
    (ttq : Entity → Option TileType) (return_early : Bool) :
    Option ProjectileFate :=
  scanToEndpointLoop (targetsOnSameRowOrColumn q origin) storage ttq
    dir.toUnitTranslation return_early 150 origin none

/-! ## Sparse cost grid (src/map_gen/cell_map.rs)

CellMap<i32> is a HashMap from (i32, i32) coordinates to i32 costs, modelled
as an association list (HashMap keys are unique; theorems that need the cost
of a returned coordinate carry a nodup-keys hypothesis or use an existential
entry). -/

/-- An (i32, i32) grid coordinate. -/
abbrev Cell : Type := Int × Int

/-- The underlying key-value pairs of a CellMap<i32>. -/
abbrev CellMap : Type := List (Cell × Int)

/-- HashMap::contains_key on the underlying map. -/
def containsKey (m : CellMap) (c : Cell) : Bool :=
  m.any (fun kv => kv.1 = c)

/-- distribute_points_by_cost from cell_map.rs.  min/max over the values are
unwrapped (none models the panic on an empty map).  The
choose_multiple_weighted call on the thread-local RNG is modelled by the
sampler parameter; its contract (at most n elements, drawn without
replacement from the candidate list) is a hypothesis of the theorems. -/
def distributePointsByCost (m : CellMap) (n : Nat)
    (sample : List Cell → Nat → List Cell) : Option (List Cell) :=
  match (m.map (·.2)).min?, (m.map (·.2)).max? with
  | some min_cost, some max_cost =>
    let positions :=
      (m.filter (fun kv => min_cost < kv.2 && kv.2 < max_cost)).map (·.1)
    some (sample positions n)
  | _, _ => none

/-! ## BFS cost recomputation (CellMap::recalculate, cell_map.rs lines 79-108)

The source keeps a FIFO work queue of (cell, cost) pairs and a fresh HashMap
new_self; popping a pair unconditionally inserts it, then pushes every
orthogonal neighbour that is a key of self and either unseen or seen only at a
strictly larger cost.  The while-let loop is embedded with explicit fuel
(none = fuel exhausted); the correctness theorem supplies a sufficient fuel.
Costs are i32 in the source but provably non-negative (BFS depths), modelled
as naturals. -/

/-- ORTHOG_NEIGHBOURS from map_gen.rs. -/
def ORTHOG_NEIGHBOURS : List (Int × Int) := [(0, 1), (1, 0), (-1, 0), (0, -1)]

/-- get_neighbours from recalculate. -/
def getNeighbours (c : Cell) : List Cell :=
  ORTHOG_NEIGHBOURS.map (fun d => (c.1 + d.1, c.2 + d.2))

/-- The while-let loop of recalculate, parameterized over key membership in
self.  The accumulating map new_self is a function to Option (HashMap insert
is overwrite). -/
def bfsAux (S : Cell → Bool) :
    Nat → List (Cell × Nat) → (Cell → Option Nat) → Option (Cell → Option Nat)
  | 0, _, _ => none
  | _ + 1, [], new_self => some new_self
  | fuel + 1, (cell, cost) :: check_cells, new_self =>
    let new_self' := fun x => if x = cell then some cost else new_self x
    let pushes := (getNeighbours cell).filter
      (fun n => S n && (match new_self' n with
                        | some prev_cost => decide (cost + 1 < prev_cost)
                        | none => true))
    bfsAux S fuel (check_cells ++ pushes.map (fun n => (n, cost + 1))) new_self'

/-- CellMap::recalculate(start_point), with explicit fuel for the loop. -/
def recalculate (m : CellMap) (start_point : Cell) (fuel : Nat) :
    Option (Cell → Option Nat) :=
  bfsAux (containsKey m) fuel [(start_point, 0)] (fun _ => none)

/-- Orthogonal adjacency, as generated by get_neighbours. -/
def Adjacent (c c2 : Cell) : Prop := c2 ∈ getNeighbours c

/-- Reachability from start in n orthogonal steps, every step entering a key
of the map (the set S). -/
inductive Reaches (S : Cell → Bool) (start : Cell) : Cell → Nat → Prop
  | zero : Reaches S start start 0
  | step {c c2 : Cell} {n : Nat} : Reaches S start c n → S c2 = true →
      Adjacent c c2 → Reaches S start c2 (n + 1)

/-- d is the true shortest orthogonal path length from start to c. -/
def IsDist (S : Cell → Bool) (start : Cell) (c : Cell) (d : Nat) : Prop :=
  Reaches S start c d ∧ ∀ n, Reaches S start c n → d ≤ n

/-! ### The BFS loop invariant

The queue of the loop always splits as Q1 ++ Q2 with every Q1 entry at the
current level k and every Q2 entry at level k+1; entry costs are exact
shortest distances; the accumulated map holds exactly the shortest distances
of the levels processed so far; and every cell of the current and next level
is covered by the map, the queue, or a still-queued level-k predecessor. -/

structure BfsInv (S : Cell → Bool) (start : Cell) (Q1 Q2 : List (Cell × Nat))
    (M : Cell → Option Nat) (k : Nat) : Prop where
  q1_cost : ∀ e ∈ Q1, e.2 = k
  q2_cost : ∀ e ∈ Q2, e.2 = k + 1
  q_exact : ∀ e ∈ Q1 ++ Q2, IsDist S start e.1 e.2
  q_keys : ∀ e ∈ Q1 ++ Q2, S e.1 = true ∨ e.1 = start
  m_exact : ∀ c d, M c = some d →
    IsDist S start c d ∧ d ≤ k ∧ (S c = true ∨ c = start)
  done_below : ∀ c d, IsDist S start c d → d < k → (M c).isSome
  level_cover : ∀ c, IsDist S start c k → (M c).isSome ∨ ∃ e ∈ Q1, e.1 = c
  next_cover : ∀ c, IsDist S start c (k + 1) →
    (∃ e ∈ Q2, e.1 = c) ∨ ∃ mm, (mm, k) ∈ Q1 ∧ Adjacent mm c

/-- The postcondition of the BFS loop: the produced map is defined exactly on
the reachable cells, its values are the true shortest distances, and its keys
lie in the key-set (or are the start). -/
def BfsPost (S : Cell → Bool) (start : Cell) (M : Cell → Option Nat) : Prop :=
  (∀ c, (M c).isSome ↔ ∃ n, Reaches S start c n) ∧
  (∀ c d, M c = some d → IsDist S start c d) ∧
  (∀ c, (M c).isSome → (S c = true ∨ c = start))

/-- The map insertion a pop performs (HashMap::insert overwrites). -/
def bfsUpdate (new_self : Cell → Option Nat) (cell : Cell) (cost : Nat) :
    Cell → Option Nat :=
  fun x => if x = cell then some cost else new_self x

/-- The queue entries a pop appends. -/
def bfsPushes (S : Cell → Bool) (new_self : Cell → Option Nat) (cell : Cell)
    (cost : Nat) : List (Cell × Nat) :=
  ((getNeighbours cell).filter
    (fun n => S n && (match bfsUpdate new_self cell cost n with
                      | some prev_cost => decide (cost + 1 < prev_cost)
                      | none => true))).map (fun n => (n, cost + 1))

/-! ### Lemmas about the turn scheduler -/

theorem GlobalTurnCounter.step_correct_phase (s : GlobalTurnCounter) :
    (s.step s.current_phase).current_phase = s.current_phase.next := by
  cases h : s.current_phase.last <;> simp [GlobalTurnCounter.step, h]

theorem GlobalTurnCounter.step_correct_count (s : GlobalTurnCounter) :
    (s.step s.current_phase).turn_count =
      s.turn_count + (if s.current_phase = .EnemyMovement then 1 else 0) := by
  rcases s with ⟨tc, cp, r⟩
  cases cp <;> simp [GlobalTurnCounter.step, GamePhase.last]

theorem GlobalTurnCounter.stepCorrectN_add (s : GlobalTurnCounter) (a b : Nat) :
    stepCorrectN s (a + b) = stepCorrectN (stepCorrectN s a) b := by
  induction b with
  | zero => rfl
  | succ b ih => simp [GlobalTurnCounter.stepCorrectN, ← Nat.add_assoc, ih]

theorem GlobalTurnCounter.stepCorrectN_five (s : GlobalTurnCounter) :
    (stepCorrectN s 5).turn_count = s.turn_count + 1 := by
  rcases s with ⟨tc, cp, r⟩
  cases cp <;>
    simp [GlobalTurnCounter.stepCorrectN, GlobalTurnCounter.step,
      GamePhase.next, GamePhase.last]

/-- C2: under correctly-phased step calls, the phase cycles in the fixed
order PlayerMovement, PlayerPowerEffect, PreEnemyMovement, EnemyPowerEffect,
EnemyMovement and back, the turn count grows by exactly one per five steps,
and a single step increments the turn count exactly when it leaves
EnemyMovement (the EnemyMovement to PlayerMovement transition). -/
theorem c2_turn_cycle (s : GlobalTurnCounter) (n : Nat) :
    (GlobalTurnCounter.stepCorrectN s n).current_phase = s.current_phase.nextN n ∧
    (s.step s.current_phase).turn_count =
      s.turn_count + (if s.current_phase = .EnemyMovement then 1 else 0) ∧
    (GlobalTurnCounter.stepCorrectN s (5 * n)).turn_count = s.turn_count + n := by
  refine ⟨?_, s.step_correct_count, ?_⟩
  · induction n with
    | zero => rfl
    | succ n ih =>
      show ((GlobalTurnCounter.stepCorrectN s n).step
          (GlobalTurnCounter.stepCorrectN s n).current_phase).current_phase = _
      rw [GlobalTurnCounter.step_correct_phase, ih]
      rfl
  · induction n with
    | zero => rfl
    | succ n ih =>
      have h5 : 5 * (n + 1) = 5 * n + 5 := by ring
      rw [h5, GlobalTurnCounter.stepCorrectN_add,
        GlobalTurnCounter.stepCorrectN_five, ih]
      ring

/-- C3 counterexample: with the reset flag set, a local counter of 5 against a
global turn count of 1 is silently clamped, so can_take_turn returns true even
though the local counter value is not below the global turn count. -/
theorem c3_counterexample :
    ¬ ((((GlobalTurnCounter.mk 1 .PlayerMovement true).canTakeTurn
          5 .PlayerMovement).2 = true) ↔
        (5 < (GlobalTurnCounter.mk 1 .PlayerMovement true).turn_count ∧
          GamePhase.PlayerMovement =
            (GlobalTurnCounter.mk 1 .PlayerMovement true).current_phase)) := by
  decide

/-- C3 (amended): whenever the reset-clamp does not fire (reset is false or the
local counter does not exceed the global turn count), can_take_turn returns
true iff the local counter is strictly below the global turn count and the
queried phase equals the current phase. -/
theorem c3_can_take_turn_iff (s : GlobalTurnCounter) (l : Nat) (p : GamePhase)
    (h : ¬ (s.reset ∧ l > s.turn_count)) :
    ((s.canTakeTurn l p).2 = true) ↔ (l < s.turn_count ∧ p = s.current_phase) := by
  simp [GlobalTurnCounter.canTakeTurn, if_neg h]

theorem c3_can_take_turn_iff_witness :
    ((GlobalTurnCounter.default.canTakeTurn 0 .PlayerMovement).2 = true) ↔
      (0 < GlobalTurnCounter.default.turn_count ∧
        GamePhase.PlayerMovement = GlobalTurnCounter.default.current_phase) :=
  c3_can_take_turn_iff GlobalTurnCounter.default 0 .PlayerMovement (by decide)

/-- C4 counterexample: can_take_turn is not pure — with the reset flag set and
a local counter of 5 above the global turn count of 1, the call rewrites the
caller's local counter to 0. -/
theorem c4_counterexample :
    ¬ (((GlobalTurnCounter.mk 1 .PlayerMovement true).canTakeTurn
          5 .PlayerMovement).1 = 5) := by
  decide

/-- C4 (amended): can_take_turn takes the global counter by shared reference
and so never mutates it; the caller's local counter is left unchanged unless
the global reset flag is set and the local counter exceeds the global turn
count, in which case it is clamped to turn_count - 1. -/
theorem c4_can_take_turn_local_mutation (s : GlobalTurnCounter) (l : Nat)
    (p : GamePhase) :
    (¬ (s.reset ∧ l > s.turn_count) → (s.canTakeTurn l p).1 = l) ∧
    ((s.reset ∧ l > s.turn_count) → (s.canTakeTurn l p).1 = s.turn_count - 1) := by
  constructor <;> intro h <;> simp [GlobalTurnCounter.canTakeTurn, h]

theorem c4_can_take_turn_local_mutation_witness :
    ((GlobalTurnCounter.mk 1 .PlayerMovement false).canTakeTurn
      5 .PlayerMovement).1 = 5 :=
  (c4_can_take_turn_local_mutation (GlobalTurnCounter.mk 1 .PlayerMovement false)
    5 .PlayerMovement).1 (by decide)

/-- C5: stepping from a phase that is not current leaves the whole state
unchanged; the source only logs a warning on this path and cannot panic. -/
theorem c5_step_mismatch_noop (s : GlobalTurnCounter) (p : GamePhase)
    (h : p ≠ s.current_phase) : s.step p = s := by
  simp [GlobalTurnCounter.step, h]

theorem c5_step_mismatch_noop_witness :
    (GlobalTurnCounter.mk 3 .PreEnemyMovement false).step .PlayerMovement =
      GlobalTurnCounter.mk 3 .PreEnemyMovement false :=
  c5_step_mismatch_noop (GlobalTurnCounter.mk 3 .PreEnemyMovement false)
    .PlayerMovement (by decide)

/-! ### Lemmas about the movement resolver and line scanner -/

theorem decideMoveLoop_stop (ac : AttackCriteria) (dir : MapDirection)
    (mq : List MoveQueryItem) (storage : TilePos → Option Entity)
    (ttq : Entity → Option TileType) (blocked : List TilePos)
    (pre rest : List TilePos) (stopTile : TilePos) :
    ∀ (dec : MoveDecision) (prev : Option TilePos),
    (∀ p ∈ pre, tileCanMove storage ttq blocked p = some true ∧
      findOccupant mq p = none) →
    tileCanMove storage ttq blocked stopTile = some false →
    decideMoveLoop ac dir mq storage ttq blocked (pre ++ stopTile :: rest) dec prev =
      some (match pre.getLast? with
            | none => dec
            | some p => .move (p, dir)) := by
  induction pre with
  | nil =>
    intro dec prev _ hstop
    simp [decideMoveLoop, hstop]
  | cons p pre ih =>
    intro dec prev hpre hstop
    have hp := hpre p (by simp)
    have hrest : ∀ q ∈ pre, tileCanMove storage ttq blocked q = some true ∧
        findOccupant mq q = none := fun q hq => hpre q (by simp [hq])
    have := ih (.move (p, dir)) (some p) hrest hstop
    rw [List.cons_append, decideMoveLoop, hp.1, hp.2, this]
    cases pre with
    | nil => rfl
    | cons b l =>
      rcases hq : (b :: l).getLast? with _ | q
      · exact absurd hq (by simp [List.getLast?_eq_none_iff])
      · simp [hq]

/-- C6: decide_move scans the candidate tiles nearest-first; at the first tile
that is non-enterable or extra-blocked it stops, the decision remaining Move
to the last preceding enterable unoccupied tile, or Turn(direction) when there
is none; plus the two concrete scenarios of the specification (a Wall directly
ahead gives Turn(Right); two empty Water tiles then a Wall give
Move((7,5), Right)). -/
theorem c6_decide_move_scan :
    (∀ (current : TilePos) (dir : MapDirection) (maxDist : Nat)
      (ac : AttackCriteria) (mq : List MoveQueryItem)
      (storage : TilePos → Option Entity) (ttq : Entity → Option TileType)
      (blocked : List TilePos) (dests pre rest : List TilePos)
      (stopTile : TilePos),
      destinationTileposList current dir maxDist = some dests →
      dests = pre ++ stopTile :: rest →
      (∀ p ∈ pre, tileCanMove storage ttq blocked p = some true ∧
        findOccupant mq p = none) →
      tileCanMove storage ttq blocked stopTile = some false →
      decideMove current dir maxDist ac mq storage ttq blocked =
        some (match pre.getLast? with
              | none => .turn dir
              | some p => .move (p, dir))) ∧
    decideMove (5, 5) .Right 1 .forPlayer []
      (fun p => some (100 * p.1 + p.2))
      (fun e => some (if e = 605 then .WALL else .WATER)) [] =
      some (.turn .Right) ∧
    decideMove (5, 5) .Right 3 .forPlayer []
      (fun p => some (100 * p.1 + p.2))
      (fun e => some (if e = 805 then .WALL else .WATER)) [] =
      some (.move ((7, 5), .Right)) := by
  refine ⟨?_, by decide, by decide⟩
  intro current dir maxDist ac mq storage ttq blocked dests pre rest stopTile
    hd hsplit hpre hstop
  rw [decideMove, hd, hsplit]
  exact decideMoveLoop_stop ac dir mq storage ttq blocked pre rest stopTile
    (.turn dir) none hpre hstop

theorem c6_decide_move_scan_witness :
    decideMove (6, 5) .Up 2 .forPlayer []
      (fun p => some (100 * p.1 + p.2))
      (fun e => some (if e = 607 then .WALL else .WATER)) [] =
      some (.move ((6, 6), .Up)) :=
  c6_decide_move_scan.1 (6, 5) .Up 2 .forPlayer []
    (fun p => some (100 * p.1 + p.2))
    (fun e => some (if e = 607 then .WALL else .WATER)) []
    [(6, 6), (6, 7)] [(6, 6)] [] (6, 7) (by decide) rfl (by decide) (by decide)

/-- C7 counterexample: applying AttackAndMaybeMove against a target left at
1 HP (not killed) moves the attacker to position_before_enemy, so its position
does change in the non-kill case, contrary to the claim. -/
theorem c7_counterexample :
    (applyMoveSingle 0
        (.attackAndMaybeMove
          { attack_target_pos := (5, 5), attack_target_entity := 1,
            direction := .Right, position_before_enemy := some (3, 3) })
        { moveComp := fun x => if x = 0 then some ((0, 0), .Up) else none,
          healths := fun x => if x = 1 then some 2 else none }).healths 1 =
      some 1 ∧
    (applyMoveSingle 0
        (.attackAndMaybeMove
          { attack_target_pos := (5, 5), attack_target_entity := 1,
            direction := .Right, position_before_enemy := some (3, 3) })
        { moveComp := fun x => if x = 0 then some ((0, 0), .Up) else none,
          healths := fun x => if x = 1 then some 2 else none }).moveComp 0 =
      some ((3, 3), .Right) ∧
    ¬ ((3, 3) : TilePos) = (0, 0) := by
  refine ⟨rfl, rfl, by decide⟩

/-- C7 (amended): applying AttackAndMaybeMove decrements the target's health
by 1 — the damage carried by both constructible criteria; if the resulting
health is exactly 0 the attacker moves onto the target's tile; otherwise its
facing updates and it moves to position_before_enemy when a multi-tile mover
had stopped short, its position unchanged when there is none.  In particular
a player attacking an adjacent enemy with 1 HP leaves the enemy at 0 HP and
the player on the enemy's former tile. -/
theorem c7_apply_attack_and_maybe_move :
    (∀ (s : MoveState) (e : Entity) (a : AttackAndMaybeMoveData) (hp : Nat)
      (tp : TilePos) (fc : MapDirection),
      s.healths a.attack_target_entity = some hp →
      s.moveComp e = some (tp, fc) →
      (applyMoveSingle e (.attackAndMaybeMove a) s).healths
          a.attack_target_entity = some (decrBy hp 1) ∧
      (applyMoveSingle e (.attackAndMaybeMove a) s).moveComp e =
        some ((if decrBy hp 1 = 0 then a.attack_target_pos
               else a.position_before_enemy.getD tp), a.direction)) ∧
    AttackCriteria.forPlayer.damage = 1 ∧
    (∀ b, (AttackCriteria.forEnemy b).damage = 1) ∧
    decideMove (0, 0) .Right 1 .forPlayer
      [{ entity := 7, pos := (1, 0), player := false, enemy := true }]
      (fun p => some (100 * p.1 + p.2)) (fun _ => some .WATER) [] =
      some (.attackAndMaybeMove
        { attack_target_pos := (1, 0), attack_target_entity := 7,
          direction := .Right, position_before_enemy := none }) ∧
    (applyMoveSingle 5
        (.attackAndMaybeMove
          { attack_target_pos := (1, 0), attack_target_entity := 7,
            direction := .Right, position_before_enemy := none })
        { moveComp := fun x => if x = 5 then some ((0, 0), .Up) else none,
          healths := fun x => if x = 7 then some 1 else none }).healths 7 =
      some 0 ∧
    (applyMoveSingle 5
        (.attackAndMaybeMove
          { attack_target_pos := (1, 0), attack_target_entity := 7,
            direction := .Right, position_before_enemy := none })
        { moveComp := fun x => if x = 5 then some ((0, 0), .Up) else none,
          healths := fun x => if x = 7 then some 1 else none }).moveComp 5 =
      some ((1, 0), .Right) := by
  refine ⟨?_, rfl, fun b => rfl, by decide, rfl, rfl⟩
  intro s e a hp tp fc hh hm
  constructor
  · simp only [applyMoveSingle, hh, hm]
    split <;> simp
  · simp only [applyMoveSingle, hh, hm]
    by_cases h2 : decrBy hp 1 = 0 <;>
      rcases hpbe : a.position_before_enemy with _ | pb <;> simp [h2, hpbe]

theorem c7_apply_attack_and_maybe_move_witness :
    (applyMoveSingle 2
        (.attackAndMaybeMove
          { attack_target_pos := (4, 4), attack_target_entity := 9,
            direction := .Left, position_before_enemy := none })
        { moveComp := fun x => if x = 2 then some ((5, 4), .Up) else none,
          healths := fun x => if x = 9 then some 3 else none }).healths 9 =
      some (decrBy 3 1) ∧
    (applyMoveSingle 2
        (.attackAndMaybeMove
          { attack_target_pos := (4, 4), attack_target_entity := 9,
            direction := .Left, position_before_enemy := none })
        { moveComp := fun x => if x = 2 then some ((5, 4), .Up) else none,
          healths := fun x => if x = 9 then some 3 else none }).moveComp 2 =
      some ((if decrBy 3 1 = 0 then ((4, 4) : TilePos)
             else (none : Option TilePos).getD (5, 4)), .Left) :=
  c7_apply_attack_and_maybe_move.1
    { moveComp := fun x => if x = 2 then some ((5, 4), .Up) else none,
      healths := fun x => if x = 9 then some 3 else none }
    2
    { attack_target_pos := (4, 4), attack_target_entity := 9,
      direction := .Left, position_before_enemy := none }
    3 (5, 4) .Up rfl rfl

/-- C8 counterexample: in the specified scenario with stop_at_first_hit set to
false, the scan runs to the wall at (2,8) and returns the wall tile itself as
the final tile — HitTarget((2,8), target), not HitTarget((2,6), target). -/
theorem c8_counterexample :
    scanToEndpoint (2, 2) .Up [(7, (2, 6))]
      (fun p => some (100 * p.1 + p.2))
      (fun e => some (if e = 208 then .WALL else .WATER)) false =
      some (.endHitTarget ((2, 8), 7)) ∧
    ¬ ((2, 8) : TilePos) = (2, 6) := by
  refine ⟨by decide, by decide⟩

theorem scanToEndpointLoop_no_targets (targets storage : TilePos → Option Entity)
    (ttq : Entity → Option TileType) (step : Int × Int) (early : Bool)
    (h : ∀ p, targets p = none) :
    ∀ (fuel : Nat) (pos : TilePos) (fate : ProjectileFate),
    scanToEndpointLoop targets storage ttq step early fuel pos none = some fate →
    ∃ p, fate = .endNoTarget p ∧ (getTiletype p ttq storage).canEnter = false := by
  intro fuel
  induction fuel with
  | zero => intro pos fate hrun; simp [scanToEndpointLoop] at hrun
  | succ f ih =>
    intro pos fate hrun
    rw [scanToEndpointLoop] at hrun
    by_cases hc : (getTiletype (tileposAddVec pos step) ttq storage).canEnter
    · rw [if_pos hc, h (tileposAddVec pos step)] at hrun
      exact ih (tileposAddVec pos step) fate hrun
    · rw [if_neg hc] at hrun
      exact ⟨tileposAddVec pos step, by
        cases hrun
        exact ⟨rfl, by simpa using hc⟩⟩

/-- C8 (amended): in the scenario (origin (2,2), direction Up, target at
(2,6), Water up to the wall at (2,8)) scan_to_endpoint with
stop_at_first_hit=true returns HitTarget((2,6), target); with false it keeps
the remembered first target but the returned final tile is the terminating
wall tile (2,8): HitTarget((2,8), target).  In general a scan that hits a
non-enterable tile with no remembered target returns NoTarget at that
non-enterable tile itself. -/
theorem c8_scan_to_endpoint :
    scanToEndpoint (2, 2) .Up [(7, (2, 6))]
      (fun p => some (100 * p.1 + p.2))
      (fun e => some (if e = 208 then .WALL else .WATER)) true =
      some (.endHitTarget ((2, 6), 7)) ∧
    scanToEndpoint (2, 2) .Up [(7, (2, 6))]
      (fun p => some (100 * p.1 + p.2))
      (fun e => some (if e = 208 then .WALL else .WATER)) false =
      some (.endHitTarget ((2, 8), 7)) ∧
    (∀ (targets storage : TilePos → Option Entity)
      (ttq : Entity → Option TileType) (step : Int × Int) (early : Bool)
      (fuel : Nat) (pos : TilePos) (fate : ProjectileFate),
      (∀ p, targets p = none) →
      scanToEndpointLoop targets storage ttq step early fuel pos none = some fate →
      ∃ p, fate = .endNoTarget p ∧
        (getTiletype p ttq storage).canEnter = false) := by
  refine ⟨by decide, by decide, ?_⟩
  intro targets storage ttq step early fuel pos fate h hrun
  exact scanToEndpointLoop_no_targets targets storage ttq step early h fuel pos
    fate hrun

theorem c8_scan_to_endpoint_witness :
    ∃ p, (ProjectileFate.endNoTarget ((2, 8) : TilePos)) = .endNoTarget p ∧
      (getTiletype p (fun e => some (if e = 208 then .WALL else .WATER))
        (fun q => some (100 * q.1 + q.2))).canEnter = false :=
  c8_scan_to_endpoint.2.2 (fun _ => none) (fun q => some (100 * q.1 + q.2))
    (fun e => some (if e = 208 then .WALL else .WATER)) (0, 1) false 150 (2, 2)
    (.endNoTarget (2, 8)) (fun _ => rfl) (by decide)

/-- C9 counterexample: a coordinate with no entity in the tile storage makes
decide_move unwrap a None — a panic (modelled by none) — so decide_move does
abort when the tile is absent from the store. -/
theorem c9_counterexample :
    decideMove (5, 5) .Right 1 .forPlayer [] (fun _ => none)
      (fun _ => some .WATER) [] = none := by
  decide

/-- C9 (amended): the scan-side lookup get_tiletype fails closed to WALL when
the coordinate has no entity in the tile storage (and scan_to_endpoint
therefore terminates there without panicking); decide_move fails closed —
treating the tile as not enterable and stopping with the decision accumulated
so far — only when the tile entity exists but its tile-type lookup fails,
and it panics (none) when the coordinate has no entity in the tile storage. -/
theorem c9_tile_lookup_fails_closed :
    (∀ (t : TilePos) (ttq : Entity → Option TileType)
      (storage : TilePos → Option Entity),
      storage t = none → getTiletype t ttq storage = .WALL) ∧
    (∀ (ac : AttackCriteria) (dir : MapDirection) (mq : List MoveQueryItem)
      (storage : TilePos → Option Entity) (ttq : Entity → Option TileType)
      (blocked : List TilePos) (dest : TilePos) (rest : List TilePos)
      (dec : MoveDecision) (prev : Option TilePos) (e : Entity),
      storage dest = some e → ttq e = none →
      decideMoveLoop ac dir mq storage ttq blocked (dest :: rest) dec prev =
        some dec) ∧
    (∀ (ac : AttackCriteria) (dir : MapDirection) (mq : List MoveQueryItem)
      (storage : TilePos → Option Entity) (ttq : Entity → Option TileType)
      (blocked : List TilePos) (dest : TilePos) (rest : List TilePos)
      (dec : MoveDecision) (prev : Option TilePos),
      storage dest = none →
      decideMoveLoop ac dir mq storage ttq blocked (dest :: rest) dec prev =
        none) := by
  refine ⟨?_, ?_, ?_⟩
  · intro t ttq storage hs
    simp [getTiletype, hs]
  · intro ac dir mq storage ttq blocked dest rest dec prev e hs ht
    simp [decideMoveLoop, tileCanMove, hs, ht]
  · intro ac dir mq storage ttq blocked dest rest dec prev hs
    simp [decideMoveLoop, tileCanMove, hs]

theorem c9_tile_lookup_fails_closed_witness :
    getTiletype (4, 4) (fun _ => some .WATER) (fun _ => none) = .WALL :=
  c9_tile_lookup_fails_closed.1 (4, 4) (fun _ => some .WATER) (fun _ => none) rfl

/-- C10: for every non-empty cost map and every requested count n, under the
contract of sampling without replacement (result length is min of n and the
candidate count, members drawn from the candidates), distribute_points_by_cost
returns at most n coordinates, no more than there are candidates, and every
returned coordinate carries a cost strictly between the map's minimum and
maximum costs. -/
theorem c10_distribute_points_bounds (m : CellMap) (n : Nat)
    (sample : List Cell → Nat → List Cell)
    (hm : m ≠ [])
    (hlen : ∀ (l : List Cell) (k : Nat), (sample l k).length = min k l.length)
    (hmem : ∀ (l : List Cell) (k : Nat), ∀ x ∈ sample l k, x ∈ l) :
    ∃ result mn mx, distributePointsByCost m n sample = some result ∧
      (m.map (·.2)).min? = some mn ∧ (m.map (·.2)).max? = some mx ∧
      result.length ≤ n ∧
      result.length ≤
        ((m.filter (fun kv => mn < kv.2 && kv.2 < mx)).map (·.1)).length ∧
      ∀ x ∈ result, ∃ v, (x, v) ∈ m ∧ mn < v ∧ v < mx := by
  have hne : m.map (·.2) ≠ [] := by
    intro h
    exact hm (List.map_eq_nil_iff.mp h)
  rcases hmin : (m.map (·.2)).min? with _ | mn
  · exact absurd (List.min?_eq_none_iff.mp hmin) hne
  rcases hmax : (m.map (·.2)).max? with _ | mx
  · exact absurd (List.max?_eq_none_iff.mp hmax) hne
  refine ⟨sample ((m.filter (fun kv => mn < kv.2 && kv.2 < mx)).map (·.1)) n,
    mn, mx, ?_, hmin, hmax, ?_, ?_, ?_⟩
  · rw [distributePointsByCost, hmin, hmax]
  · rw [hlen]
    exact Nat.min_le_left _ _
  · rw [hlen]
    exact Nat.min_le_right _ _
  · intro x hx
    have hx2 := hmem _ n x hx
    rcases List.mem_map.mp hx2 with ⟨kv, hkv, hfst⟩
    rcases List.mem_filter.mp hkv with ⟨hkvm, hp⟩
    simp only [Bool.and_eq_true, decide_eq_true_eq] at hp
    refine ⟨kv.2, ?_, hp.1, hp.2⟩
    rw [← hfst]
    exact hkvm

theorem c10_distribute_points_bounds_witness :
    ∃ result mn mx,
      distributePointsByCost [(((0 : Int), (0 : Int)), (0 : Int)),
          (((1 : Int), (0 : Int)), (1 : Int)), (((2 : Int), (0 : Int)), (2 : Int))]
        1 (fun l k => l.take k) = some result ∧
      (([(((0 : Int), (0 : Int)), (0 : Int)), (((1 : Int), (0 : Int)), (1 : Int)),
          (((2 : Int), (0 : Int)), (2 : Int))] : CellMap).map (·.2)).min? =
        some mn ∧
      (([(((0 : Int), (0 : Int)), (0 : Int)), (((1 : Int), (0 : Int)), (1 : Int)),
          (((2 : Int), (0 : Int)), (2 : Int))] : CellMap).map (·.2)).max? =
        some mx ∧
      result.length ≤ 1 ∧
      result.length ≤
        ((([(((0 : Int), (0 : Int)), (0 : Int)), (((1 : Int), (0 : Int)), (1 : Int)),
            (((2 : Int), (0 : Int)), (2 : Int))] : CellMap).filter
          (fun kv => mn < kv.2 && kv.2 < mx)).map (·.1)).length ∧
      ∀ x ∈ result, ∃ v,
        (x, v) ∈ ([(((0 : Int), (0 : Int)), (0 : Int)),
          (((1 : Int), (0 : Int)), (1 : Int)),
          (((2 : Int), (0 : Int)), (2 : Int))] : CellMap) ∧ mn < v ∧ v < mx :=
  c10_distribute_points_bounds _ 1 (fun l k => l.take k) (by decide)
    (fun l k => List.length_take k l) (fun l k x hx => List.take_subset k l hx)

/-! ### Reachability groundwork for the BFS proof -/

theorem adjacent_iff {c c2 : Cell} :
    Adjacent c c2 ↔
      (c2.1 = c.1 ∧ c2.2 = c.2 + 1) ∨ (c2.1 = c.1 + 1 ∧ c2.2 = c.2) ∨
      (c2.1 = c.1 - 1 ∧ c2.2 = c.2) ∨ (c2.1 = c.1 ∧ c2.2 = c.2 - 1) := by
  simp only [Adjacent, getNeighbours, ORTHOG_NEIGHBOURS, List.map_cons,
    List.map_nil, List.mem_cons, List.not_mem_nil, or_false, Prod.ext_iff]
  omega

theorem adjacent_symm {c c2 : Cell} (h : Adjacent c c2) : Adjacent c2 c := by
  rw [adjacent_iff] at h ⊢
  omega

theorem reaches_parity {S : Cell → Bool} {start c : Cell} {n : Nat}
    (h : Reaches S start c n) :
    (c.1 + c.2 + n) % 2 = (start.1 + start.2) % 2 := by
  induction h with
  | zero => norm_num
  | step _ _ hAdj ih =>
    rw [adjacent_iff] at hAdj
    push_cast
    omega

theorem reaches_succ_S {S : Cell → Bool} {start c : Cell} {n : Nat}
    (h : Reaches S start c (n + 1)) : S c = true := by
  cases h with
  | step _ hS _ => exact hS

theorem reaches_zero_eq {S : Cell → Bool} {start c : Cell}
    (h : Reaches S start c 0) : c = start := by
  cases h
  rfl

theorem exists_isDist {S : Cell → Bool} {start c : Cell} {n : Nat}
    (h : Reaches S start c n) : ∃ d, IsDist S start c d := by
  classical
  have hex : ∃ d, Reaches S start c d := ⟨n, h⟩
  exact ⟨Nat.find hex, Nat.find_spec hex, fun m hm => Nat.find_min' hex hm⟩

theorem isDist_unique {S : Cell → Bool} {start c : Cell} {d d2 : Nat}
    (h : IsDist S start c d) (h2 : IsDist S start c d2) : d = d2 :=
  Nat.le_antisymm (h.2 _ h2.1) (h2.2 _ h.1)

theorem isDist_pred {S : Cell → Bool} {start c : Cell} {d : Nat}
    (h : IsDist S start c (d + 1)) :
    ∃ c2, IsDist S start c2 d ∧ Adjacent c2 c ∧ S c = true := by
  rcases hr : h.1 with _ | @⟨c2, _, n, hr2, hS, hAdj⟩
  rcases exists_isDist hr2 with ⟨d2, hd2⟩
  have hle : d2 ≤ d := hd2.2 _ hr2
  have hge : d + 1 ≤ d2 + 1 := h.2 _ (.step hd2.1 hS hAdj)
  have : d2 = d := by omega
  exact ⟨c2, this ▸ hd2, hAdj, hS⟩

theorem isDist_adjacent_ne {S : Cell → Bool} {start c c2 : Cell} {d d2 : Nat}
    (hAdj : Adjacent c c2) (h : IsDist S start c d) (h2 : IsDist S start c2 d2) :
    d ≠ d2 := by
  have p1 := reaches_parity h.1
  have p2 := reaches_parity h2.1
  rw [adjacent_iff] at hAdj
  omega

theorem isDist_chain {S : Cell → Bool} {start : Cell} :
    ∀ (d : Nat) (c : Cell), IsDist S start c d →
    ∃ l : List Cell, l.length = d ∧ l.Nodup ∧
      ∀ x ∈ l, S x = true ∧ ∃ j, 1 ≤ j ∧ j ≤ d ∧ IsDist S start x j := by
  intro d
  induction d with
  | zero => exact fun c _ => ⟨[], rfl, List.nodup_nil, by simp⟩
  | succ d ih =>
    intro c h
    rcases isDist_pred h with ⟨c2, hc2, _, hS⟩
    rcases ih c2 hc2 with ⟨l, hlen, hnd, hall⟩
    refine ⟨c :: l, by simp [hlen], List.nodup_cons.mpr ⟨?_, hnd⟩, ?_⟩
    · intro hc
      rcases hall c hc with ⟨_, j, _, hjd, hjdist⟩
      have := isDist_unique h hjdist
      omega
    · intro x hx
      rcases List.mem_cons.mp hx with rfl | hx2
      · exact ⟨hS, d + 1, by omega, Nat.le_refl _, h⟩
      · rcases hall x hx2 with ⟨hSx, j, hj1, hjd, hjdist⟩
        exact ⟨hSx, j, hj1, by omega, hjdist⟩

theorem isDist_le_length {m : CellMap} {start c : Cell} {d : Nat}
    (h : IsDist (containsKey m) start c d) : d ≤ m.length := by
  rcases isDist_chain d c h with ⟨l, hlen, hnd, hall⟩
  have hsub : l.toFinset ⊆ (m.map (·.1)).toFinset := by
    intro x hx
    rw [List.mem_toFinset] at hx ⊢
    rcases List.any_eq_true.mp (hall x hx).1 with ⟨kv, hkv, heq⟩
    exact List.mem_map.mpr ⟨kv, hkv, of_decide_eq_true heq⟩
  have h1 : l.toFinset.card = l.length := List.toFinset_card_of_nodup hnd
  have h2 : (m.map (·.1)).toFinset.card ≤ (m.map (·.1)).length :=
    List.toFinset_card_le _
  have h3 := Finset.card_le_card hsub
  have h4 : (m.map (·.1)).length = m.length := List.length_map _ _
  omega

theorem bfsAux_cons_eq (S : Cell → Bool) (fuel : Nat) (cell : Cell) (cost : Nat)
    (check_cells : List (Cell × Nat)) (new_self : Cell → Option Nat) :
    bfsAux S (fuel + 1) ((cell, cost) :: check_cells) new_self =
      bfsAux S fuel (check_cells ++ bfsPushes S new_self cell cost)
        (bfsUpdate new_self cell cost) := rfl

theorem bfsInv_empty_post {S : Cell → Bool} {start : Cell}
    {M : Cell → Option Nat} {k : Nat}
    (inv : BfsInv S start [] [] M k) : BfsPost S start M := by
  have hnone : ∀ x, ¬ IsDist S start x (k + 1) := by
    intro x hx
    rcases inv.next_cover x hx with ⟨e, he, _⟩ | ⟨mm, hmm, _⟩
    · exact absurd he (List.not_mem_nil e)
    · exact absurd hmm (List.not_mem_nil _)
  have habove : ∀ i x, ¬ IsDist S start x (k + 1 + i) := by
    intro i
    induction i with
    | zero => exact hnone
    | succ i ih =>
      intro x hx
      rcases isDist_pred hx with ⟨c2, hc2, _, _⟩
      exact ih c2 hc2
  have hbound : ∀ x d, IsDist S start x d → d ≤ k := by
    intro x d hx
    by_contra hgt
    refine habove (d - k - 1) x ?_
    have heq : k + 1 + (d - k - 1) = d := by omega
    rwa [heq]
  refine ⟨?_, fun c d h => (inv.m_exact c d h).1, fun c h => ?_⟩
  · intro c
    constructor
    · intro hs
      rcases Option.isSome_iff_exists.mp hs with ⟨d, hd⟩
      exact ⟨d, (inv.m_exact c d hd).1.1⟩
    · rintro ⟨n, hn⟩
      rcases exists_isDist hn with ⟨d, hd⟩
      rcases Nat.lt_or_ge d k with hlt | hge
      · exact inv.done_below c d hd hlt
      · have hdk : d = k := Nat.le_antisymm (hbound c d hd) hge
        rcases inv.level_cover c (hdk ▸ hd) with hm | ⟨e, he, _⟩
        · exact hm
        · exact absurd he (List.not_mem_nil _)
  · rcases Option.isSome_iff_exists.mp h with ⟨d, hd⟩
    exact (inv.m_exact c d hd).2.2

theorem bfsInv_relevel {S : Cell → Bool} {start : Cell}
    {Q2 : List (Cell × Nat)} {M : Cell → Option Nat} {k : Nat}
    (inv : BfsInv S start [] Q2 M k) : BfsInv S start Q2 [] M (k + 1) := by
  refine ⟨inv.q2_cost, by simp, ?_, ?_, ?_, ?_, ?_, ?_⟩
  · intro e he
    exact inv.q_exact e (by simpa using he)
  · intro e he
    exact inv.q_keys e (by simpa using he)
  · intro x d h
    obtain ⟨h1, h2, h3⟩ := inv.m_exact x d h
    exact ⟨h1, by omega, h3⟩
  · intro x d hx hlt
    rcases Nat.lt_or_ge d k with hlt2 | hge
    · exact inv.done_below x d hx hlt2
    · have hdk : d = k := by omega
      rcases inv.level_cover x (hdk ▸ hx) with hm | ⟨e, he, _⟩
      · exact hm
      · exact absurd he (List.not_mem_nil _)
  · intro x hx
    rcases inv.next_cover x hx with ⟨e, he, he1⟩ | ⟨mm, hmm, _⟩
    · exact Or.inr ⟨e, he, he1⟩
    · exact absurd hmm (List.not_mem_nil _)
  · intro x hx
    rcases isDist_pred hx with ⟨mm, hmm, hAdj, _⟩
    rcases inv.next_cover mm hmm with ⟨e, he, he1⟩ | ⟨m2, hm2, _⟩
    · right
      have he2 := inv.q2_cost e he
      have heq : e = (mm, k + 1) := Prod.ext he1 he2
      exact ⟨mm, heq ▸ he, hAdj⟩
    · exact absurd hm2 (List.not_mem_nil _)

theorem bfsInv_step {S : Cell → Bool} {start : Cell} {c : Cell}
    {Q1 Q2 : List (Cell × Nat)} {M : Cell → Option Nat} {k : Nat}
    (inv : BfsInv S start ((c, k) :: Q1) Q2 M k) :
    BfsInv S start Q1 (Q2 ++ bfsPushes S M c k) (bfsUpdate M c k) k := by
  have hcd : IsDist S start c k := inv.q_exact (c, k) (by simp)
  have hcS : S c = true ∨ c = start := inv.q_keys (c, k) (by simp)
  have hstart0 : IsDist S start start 0 := ⟨.zero, fun _ _ => Nat.zero_le _⟩
  have hpush_shape : ∀ e ∈ bfsPushes S M c k,
      e.2 = k + 1 ∧ Adjacent c e.1 ∧ S e.1 = true ∧
      (match bfsUpdate M c k e.1 with
       | some prev_cost => decide (k + 1 < prev_cost)
       | none => true) = true := by
    intro e he
    rw [bfsPushes] at he
    rcases List.mem_map.mp he with ⟨n, hn, rfl⟩
    rcases List.mem_filter.mp hn with ⟨hmem, hcond⟩
    simp only [Bool.and_eq_true] at hcond
    exact ⟨rfl, hmem, hcond.1, hcond.2⟩
  have hpush_dist : ∀ e ∈ bfsPushes S M c k, IsDist S start e.1 (k + 1) := by
    intro e he
    obtain ⟨_, hAdj, hS, hcond⟩ := hpush_shape e he
    have hreach : Reaches S start e.1 (k + 1) := .step hcd.1 hS hAdj
    rcases exists_isDist hreach with ⟨dn, hdn⟩
    have hle : dn ≤ k + 1 := hdn.2 _ hreach
    have hne : k ≠ dn := isDist_adjacent_ne hAdj hcd hdn
    have hne2 : e.1 ≠ c := by
      intro h
      rw [h] at hdn
      exact hne (isDist_unique hcd hdn)
    have hlow : k ≤ dn + 1 := by
      rcases hcS with hcs | hceq
      · exact hcd.2 _ (.step hdn.1 hcs (adjacent_symm hAdj))
      · have : k = 0 := isDist_unique hcd (hceq ▸ hstart0)
        omega
    have hcase : dn = k + 1 ∨ dn + 1 = k := by omega
    rcases hcase with h | h
    · rwa [h] at hdn
    · exfalso
      have hsome := inv.done_below e.1 dn hdn (by omega)
      rcases Option.isSome_iff_exists.mp hsome with ⟨dM, hdM⟩
      have hdMn : dM = dn := isDist_unique (inv.m_exact e.1 dM hdM).1 hdn
      rw [bfsUpdate, if_neg hne2, hdM, hdMn] at hcond
      simp only [decide_eq_true_eq] at hcond
      omega
  have hpush_of : ∀ x, IsDist S start x (k + 1) → Adjacent c x →
      (x, k + 1) ∈ bfsPushes S M c k := by
    intro x hx hAdj
    have hSx : S x = true := reaches_succ_S hx.1
    have hxc : x ≠ c := by
      intro h
      rw [h] at hx
      have := isDist_unique hcd hx
      omega
    have hMx : M x = none := by
      rcases hM : M x with _ | d
      · rfl
      · have h1 := inv.m_exact x d hM
        have : d = k + 1 := isDist_unique h1.1 hx
        omega
    rw [bfsPushes]
    refine List.mem_map.mpr ⟨x, List.mem_filter.mpr ⟨hAdj, ?_⟩, rfl⟩
    simp [bfsUpdate, hxc, hMx, hSx]
  refine ⟨?_, ?_, ?_, ?_, ?_, ?_, ?_, ?_⟩
  · exact fun e he => inv.q1_cost e (List.mem_cons_of_mem _ he)
  · intro e he
    rcases List.mem_append.mp he with h | h
    · exact inv.q2_cost e h
    · exact (hpush_shape e h).1
  · intro e he
    rcases List.mem_append.mp he with h | h
    · exact inv.q_exact e (List.mem_append.mpr (Or.inl (List.mem_cons_of_mem _ h)))
    · rcases List.mem_append.mp h with h2 | h2
      · exact inv.q_exact e (List.mem_append.mpr (Or.inr h2))
      · rw [(hpush_shape e h2).1]
        exact hpush_dist e h2
  · intro e he
    rcases List.mem_append.mp he with h | h
    · exact inv.q_keys e (List.mem_append.mpr (Or.inl (List.mem_cons_of_mem _ h)))
    · rcases List.mem_append.mp h with h2 | h2
      · exact inv.q_keys e (List.mem_append.mpr (Or.inr h2))
      · exact Or.inl (hpush_shape e h2).2.2.1
  · intro x d h
    rw [bfsUpdate] at h
    by_cases hx : x = c
    · rw [if_pos hx] at h
      have hk : k = d := Option.some.inj h
      subst hx
      subst hk
      exact ⟨hcd, Nat.le_refl _, hcS⟩
    · rw [if_neg hx] at h
      obtain ⟨h1, h2, h3⟩ := inv.m_exact x d h
      exact ⟨h1, h2, h3⟩
  · intro x d hx hlt
    have := inv.done_below x d hx hlt
    by_cases hxc : x = c
    · simp [bfsUpdate, hxc]
    · simpa [bfsUpdate, hxc] using this
  · intro x hx
    rcases inv.level_cover x hx with hm | ⟨e, he, he1⟩
    · left
      by_cases hxc : x = c
      · simp [bfsUpdate, hxc]
      · simpa [bfsUpdate, hxc] using hm
    · rcases List.mem_cons.mp he with heq | h2
      · left
        have hcx : c = x := by rw [heq] at he1; exact he1
        simp [bfsUpdate, ← hcx]
      · exact Or.inr ⟨e, h2, he1⟩
  · intro x hx
    rcases inv.next_cover x hx with ⟨e, he, he1⟩ | ⟨mm, hmm, hAdj⟩
    · exact Or.inl ⟨e, List.mem_append.mpr (Or.inl he), he1⟩
    · rcases List.mem_cons.mp hmm with heq | h2
      · have hmc : mm = c := congrArg Prod.fst heq
        exact Or.inl ⟨(x, k + 1),
          List.mem_append.mpr (Or.inr (hpush_of x hx (hmc ▸ hAdj))), rfl⟩
      · exact Or.inr ⟨mm, h2, hAdj⟩

theorem bfs_run (S : Cell → Bool) (start : Cell) (B : Nat)
    (HB : ∀ c d, IsDist S start c d → d ≤ B) :
    ∀ (L : Nat) (Q1 : List (Cell × Nat)) (k : Nat), B + 1 - k ≤ L →
    ∀ (Q2 : List (Cell × Nat)) (M : Cell → Option Nat),
    BfsInv S start Q1 Q2 M k →
    ∃ f₀, ∀ f, f₀ ≤ f →
      ∃ M2, bfsAux S f (Q1 ++ Q2) M = some M2 ∧ BfsPost S start M2 := by
  intro L
  induction L with
  | zero =>
    intro Q1 k hk Q2 M inv
    cases Q1 with
    | cons e Q1' =>
      exfalso
      have h1 := inv.q1_cost e (by simp)
      have h2 := inv.q_exact e (by simp)
      have := HB e.1 e.2 h2
      omega
    | nil =>
      cases Q2 with
      | cons e Q2' =>
        exfalso
        have h1 := inv.q2_cost e (by simp)
        have h2 := inv.q_exact e (by simp)
        have := HB e.1 e.2 h2
        omega
      | nil =>
        refine ⟨1, fun f hf => ?_⟩
        obtain ⟨f2, rfl⟩ : ∃ f2, f = f2 + 1 := ⟨f - 1, by omega⟩
        exact ⟨M, rfl, bfsInv_empty_post inv⟩
  | succ L ihL =>
    intro Q1
    induction Q1 with
    | nil =>
      intro k hk Q2 M inv
      cases Q2 with
      | nil =>
        refine ⟨1, fun f hf => ?_⟩
        obtain ⟨f2, rfl⟩ : ∃ f2, f = f2 + 1 := ⟨f - 1, by omega⟩
        exact ⟨M, rfl, bfsInv_empty_post inv⟩
      | cons e Q2' =>
        have inv2 := bfsInv_relevel inv
        have hbk : k + 1 ≤ B := by
          have h2 := inv.q_exact e (by simp)
          have h1 := inv.q2_cost e (by simp)
          have := HB e.1 e.2 h2
          omega
        have hk2 : B + 1 - (k + 1) ≤ L := by omega
        have := ihL (e :: Q2') (k + 1) hk2 [] M inv2
        simpa only [List.append_nil, List.nil_append] using this
    | cons e Q1' ihQ =>
      intro k hk Q2 M inv
      obtain ⟨c, j⟩ := e
      have hj : j = k := inv.q1_cost (c, j) (by simp)
      subst hj
      have inv2 := bfsInv_step inv
      rcases ihQ j hk (Q2 ++ bfsPushes S M c j) (bfsUpdate M c j) inv2 with ⟨f₀, hf⟩
      refine ⟨f₀ + 1, fun f hff => ?_⟩
      obtain ⟨f2, rfl⟩ : ∃ f2, f = f2 + 1 := ⟨f - 1, by omega⟩
      rcases hf f2 (by omega) with ⟨M2, hM2, hpost⟩
      refine ⟨M2, ?_, hpost⟩
      rw [List.cons_append, bfsAux_cons_eq, List.append_assoc]
      exact hM2

/-- C1 counterexample: on the empty cost map with origin (0,0), recalculate
still returns a map holding the origin at cost 0, so a key outside the
input's key-set appears in the result. -/
theorem c1_counterexample :
    ((recalculate [] (0, 0) 2).bind (fun M => M (0, 0))) = some 0 ∧
    containsKey [] (0, 0) = false := by
  exact ⟨rfl, rfl⟩

/-- C1 (amended): provided the origin is a key of the input map, recalculate
(run with any sufficient fuel for its while-let loop) returns a map whose
key-set is exactly the coordinates of the input reachable from the origin via
orthogonal steps through the input's keys, assigning the origin cost 0 and
every other reachable coordinate its true shortest orthogonal path length;
unreachable coordinates and coordinates outside the input are absent.  (For
an origin outside the input's keys the result instead holds the origin, as
the counterexample shows.) -/
theorem c1_recalculate_bfs (m : CellMap) (start : Cell)
    (hstart : containsKey m start = true) :
    ∃ f₀, ∀ f, f₀ ≤ f → ∃ M, recalculate m start f = some M ∧
      (∀ c, (M c).isSome ↔ ∃ n, Reaches (containsKey m) start c n) ∧
      (∀ c, (M c).isSome → containsKey m c = true) ∧
      M start = some 0 ∧
      (∀ c d, M c = some d → Reaches (containsKey m) start c d ∧
        ∀ n, Reaches (containsKey m) start c n → d ≤ n) := by
  have hd0 : IsDist (containsKey m) start start 0 :=
    ⟨.zero, fun _ _ => Nat.zero_le _⟩
  have inv0 : BfsInv (containsKey m) start [(start, 0)] [] (fun _ => none) 0 := by
    refine ⟨by simp, by simp, ?_, ?_, ?_, ?_, ?_, ?_⟩
    · intro e he
      simp only [List.append_nil, List.mem_singleton] at he
      subst he
      exact hd0
    · intro e he
      simp only [List.append_nil, List.mem_singleton] at he
      subst he
      exact Or.inr rfl
    · intro c d h
      simp at h
    · intro c d _ h
      omega
    · intro c hc
      exact Or.inr ⟨(start, 0), by simp, (reaches_zero_eq hc.1).symm⟩
    · intro c hc
      rcases isDist_pred hc with ⟨c2, hc2, hAdj, _⟩
      have hc2s : c2 = start := reaches_zero_eq hc2.1
      subst hc2s
      exact Or.inr ⟨c2, by simp, hAdj⟩
  rcases bfs_run (containsKey m) start m.length
      (fun c d h => isDist_le_length h) (m.length + 1) [(start, 0)] 0
      (by omega) [] (fun _ => none) inv0 with ⟨f₀, hf⟩
  refine ⟨f₀, fun f hff => ?_⟩
  rcases hf f hff with ⟨M, hM, hpost⟩
  have hrecalc : recalculate m start f = some M := by
    rw [recalculate]
    simpa only [List.append_nil] using hM
  have hsome : (M start).isSome := (hpost.1 start).mpr ⟨0, .zero⟩
  rcases Option.isSome_iff_exists.mp hsome with ⟨d0, hd0'⟩
  have hz : d0 = 0 := Nat.le_zero.mp ((hpost.2.1 start d0 hd0').2 0 .zero)
  refine ⟨M, hrecalc, hpost.1, ?_, by rw [hd0', hz], fun c d h => hpost.2.1 c d h⟩
  intro c hc
  rcases hpost.2.2 c hc with h | h
  · exact h
  · exact h ▸ hstart

theorem c1_recalculate_bfs_witness :
    ∃ f₀, ∀ f, f₀ ≤ f → ∃ M,
      recalculate [(((0 : Int), (0 : Int)), (0 : Int))] (0, 0) f = some M ∧
      (∀ c, (M c).isSome ↔
        ∃ n, Reaches (containsKey [(((0 : Int), (0 : Int)), (0 : Int))]) (0, 0) c n) ∧
      (∀ c, (M c).isSome →
        containsKey [(((0 : Int), (0 : Int)), (0 : Int))] c = true) ∧
      M (0, 0) = some 0 ∧
      (∀ c d, M c = some d →
        Reaches (containsKey [(((0 : Int), (0 : Int)), (0 : Int))]) (0, 0) c d ∧
        ∀ n, Reaches (containsKey [(((0 : Int), (0 : Int)), (0 : Int))]) (0, 0) c n →
          d ≤ n) :=
  c1_recalculate_bfs [(((0 : Int), (0 : Int)), (0 : Int))] (0, 0) (by decide)

end RH
